import Mathlib

/-!
Verification of the article segmentation and cross-reference extraction core
of `kr_statute.py`: the text normalizer `clean_text`, the reference extractor
`get_relation_parts`, and the segmenter `parse_html_by_article_sections`.

Texts are embedded as `List Char`.  Python regexes are hand-translated:
for these patterns greedy matching needs no backtracking (every `\d+` is
followed by a non-digit literal and every optional group is followed only by
optional material), so maximal-munch translation is exact.
-/

/-- Python's `\s` whitespace class (Unicode), restricted to the code points
that are whitespace in Python's `re` module. -/
def isPySpace (c : Char) : Bool :=
  c = ' ' || c = '\t' || c = '\n' || c = '\r' || c = '\x0b' || c = '\x0c' ||
  (0x1c ≤ c.toNat && c.toNat ≤ 0x1f) || c.toNat = 0x85 || c.toNat = 0xa0 ||
  c.toNat = 0x1680 || (0x2000 ≤ c.toNat && c.toNat ≤ 0x200a) ||
  c.toNat = 0x2028 || c.toNat = 0x2029 || c.toNat = 0x202f ||
  c.toNat = 0x205f || c.toNat = 0x3000

/-- The circled-numeral range `[①-⑳]` (① through ⑳) deleted by
`clean_text`. -/
def isCircled (c : Char) : Bool :=
  0x2460 ≤ c.toNat && c.toNat ≤ 0x2473

/-- Python's `\d` digit class; statute text uses ASCII digits
(`'0'` = U+0030 through `'9'` = U+0039). -/
def isDigitCh (c : Char) : Bool :=
  0x30 ≤ c.toNat && c.toNat ≤ 0x39

/-- Translation of `text.replace("\n", " ")`. -/
def replaceNewlines (l : List Char) : List Char :=
  l.map (fun c => if c = '\n' then ' ' else c)

/-- Translation of `re.sub(r"[①-⑳]", "", text)`. -/
def removeCircled (l : List Char) : List Char :=
  l.filter (fun c => !isCircled c)

/-- Translation of `re.sub(r"\s+", " ", text)`: every maximal run of whitespace becomes a
single space. -/
def collapseWs : List Char → List Char
  | [] => []
  | [c] => if isPySpace c then [' '] else [c]
  | c₁ :: c₂ :: rest =>
    if isPySpace c₁ then
      if isPySpace c₂ then collapseWs (c₂ :: rest)
      else ' ' :: collapseWs (c₂ :: rest)
    else c₁ :: collapseWs (c₂ :: rest)

/-- The function `clean_text` from `kr_statute.py`: flatten newlines, delete circled
numerals, collapse whitespace runs. -/
def clean_text (l : List Char) : List Char :=
  collapseWs (removeCircled (replaceNewlines l))

/-- The optional group `(?:의\d+)?`: on `의<digits>` return the consumed
text and the rest, otherwise consume nothing.  Greedy matching is exact
maximal munch here because the digits are followed by a non-digit. -/
def optEui (cs : List Char) : List Char × List Char :=
  match cs with
  | [] => ([], cs)
  | c :: r =>
    if c = '의' then
      let ds := r.takeWhile isDigitCh
      if ds = [] then ([], cs) else ('의' :: ds, r.dropWhile isDigitCh)
    else ([], cs)

/-- The optional group `(?:제\d+항)?`. -/
def optHang (cs : List Char) : List Char × List Char :=
  match cs with
  | [] => ([], cs)
  | c :: r =>
    if c = '제' then
      let ds := r.takeWhile isDigitCh
      match r.dropWhile isDigitCh with
      | [] => ([], cs)
      | c₂ :: r₂ =>
        if c₂ = '항' then
          if ds = [] then ([], cs) else ('제' :: ds ++ ['항'], r₂)
        else ([], cs)
    else ([], cs)

/-- Match the pattern `제\d+조(?:의\d+)?(?:제\d+항)?` at the start of the
input; on success return the matched text and the remaining input. -/
def matchRef (cs : List Char) : Option (List Char × List Char) :=
  match cs with
  | [] => none
  | c :: rest =>
    if c = '제' then
      let ds := rest.takeWhile isDigitCh
      if ds = [] then none else
      match rest.dropWhile isDigitCh with
      | c₂ :: rest₂ =>
        if c₂ = '조' then
          let p₂ := optEui rest₂
          let p₃ := optHang p₂.2
          some ('제' :: ds ++ '조' :: p₂.1 ++ p₃.1, p₃.2)
        else none
      | [] => none
    else none

/-- Fueled scanner implementing `re.findall`: at each position try `matchRef`;
on success emit the match and resume after it, otherwise advance one
character. -/
def findRefsF : Nat → List Char → List (List Char)
  | 0, _ => []
  | _ + 1, [] => []
  | fuel + 1, c :: rest =>
    match matchRef (c :: rest) with
    | some (m, r) => m :: findRefsF fuel r
    | none => findRefsF fuel rest

/-- The function `get_relation_parts` from `kr_statute.py`: all non-overlapping matches of
`제\d+조(?:의\d+)?(?:제\d+항)?` in left-to-right order. -/
def get_relation_parts (l : List Char) : List (List Char) :=
  findRefsF l.length l

/-- A `<p>` tag as the segmenter sees it: `get_text(strip=True)`,
`get_text(separator=" ", strip=True)`, and the optional `id` attribute. -/
structure PNode where
  strippedText : List Char
  sepText : List Char
  idAttr : Option (List Char)
deriving DecidableEq

instance : Inhabited PNode := ⟨⟨[], [], none⟩⟩

/-- Translation of `.replace("<br />", "")` on extracted node text. -/
def removeBr : List Char → List Char
  | '<' :: 'b' :: 'r' :: ' ' :: '/' :: '>' :: rest => removeBr rest
  | c :: rest => c :: removeBr rest
  | [] => []

/-- Translation of `tag.get("id", "unknown")`. -/
def nodeId (n : PNode) : List Char :=
  n.idAttr.getD "unknown".data

/-- Match `^제\d+조(?:의\d+)?` at the start of a node's stripped text,
returning the captured article label. -/
def matchArticleStart (cs : List Char) : Option (List Char) :=
  match cs with
  | '제' :: rest =>
    let ds := rest.takeWhile isDigitCh
    if ds = [] then none else
    match rest.dropWhile isDigitCh with
    | '조' :: rest₂ =>
      let tl : List Char :=
        match rest₂ with
        | '의' :: r =>
          let ds₂ := r.takeWhile isDigitCh
          if ds₂ = [] then [] else '의' :: ds₂
        | _ => []
      some ('제' :: ds ++ '조' :: tl)
    | _ => none
  | _ => none

/-- The enumeration loop recording `(index, article_id)` for every node whose
stripped text starts with the article pattern, indices from `i`. -/
def articleIndicesFrom : Nat → List PNode → List (Nat × List Char)
  | _, [] => []
  | i, n :: rest =>
    match matchArticleStart n.strippedText with
    | some aid => (i, aid) :: articleIndicesFrom (i + 1) rest
    | none => articleIndicesFrom (i + 1) rest

/-- The list `article_indices` of `parse_html_by_article_sections`. -/
def articleIndices (nodes : List PNode) : List (Nat × List Char) :=
  articleIndicesFrom 0 nodes

/-- Per-marker `(start_idx, end_idx)` pairs: each marker's index up to the
next marker's index, the last extending to `len`. -/
def chunkBounds (len : Nat) : List (Nat × List Char) → List (Nat × Nat)
  | [] => []
  | (s, _) :: rest =>
    (s, match rest with | [] => len | (s₂, _) :: _ => s₂) :: chunkBounds len rest

/-- Translation of the slice `all_p_tags[s:e]`. -/
def chunkSpan (nodes : List PNode) (s e : Nat) : List PNode :=
  (nodes.drop s).take (e - s)

/-- The parsed article record built for one span. -/
structure ArticleChunk where
  article_id : List Char
  start_id : List Char
  end_id : List Char
  content : List Char
  paragraph_ids : List (List Char)
  relation_parts : List (List Char)
deriving DecidableEq

/-- The per-node extraction inside the chunk loop: separator-joined text with
`<br />` stripped, then cleaned, then fed to `get_relation_parts`. -/
def nodeRefs (n : PNode) : List (List Char) :=
  get_relation_parts (clean_text (removeBr n.sepText))

/-- Build one `ArticleChunk` for the span `[s, e)`, exactly as the loop body
of `parse_html_by_article_sections` does. -/
def mkChunk (nodes : List PNode) (s e : Nat) (aid : List Char) : ArticleChunk :=
  let span := chunkSpan nodes s e
  { article_id := aid
    start_id := nodeId (nodes.getD s default)
    end_id := nodeId (nodes.getD (e - 1) default)
    content := List.intercalate ['\n'] (span.map (fun n => removeBr n.sepText))
    paragraph_ids := span.map nodeId
    relation_parts := ((span.map nodeRefs).flatten).drop 1 }

/-- The chunk-building loop over the marker list. -/
def buildChunks (nodes : List PNode) : List (Nat × List Char) → List ArticleChunk
  | [] => []
  | (s, aid) :: rest =>
    mkChunk nodes s (match rest with | [] => nodes.length | (s₂, _) :: _ => s₂) aid
      :: buildChunks nodes rest

/-- The function `parse_html_by_article_sections` from `kr_statute.py`. -/
def parse_html_by_article_sections (nodes : List PNode) : List ArticleChunk :=
  buildChunks nodes (articleIndices nodes)

/-- The node spans of the chunks, for stating segmentation properties. -/
def chunkSpans (nodes : List PNode) : List (List PNode) :=
  (chunkBounds nodes.length (articleIndices nodes)).map
    (fun b => chunkSpan nodes b.1 b.2)

/-- A small concrete document (a preamble node, two article-start nodes and
one body node carrying a cross-reference) used for concrete instantiations. -/
def sampleDoc : List PNode :=
  [⟨"전문".data, "전문".data, some "p0".data⟩,
   ⟨"제1조(벌칙)".data, "제1조 (벌칙)".data, some "p1".data⟩,
   ⟨"위반시 제1조제2항에 따라 과태료".data, "위반시 제1조제2항에 따라 과태료".data,
    some "p2".data⟩,
   ⟨"제2조(정의)".data, "제2조 (정의)".data, none⟩]

/-- Nonempty all-digit text. -/
def DigitsNE (d : List Char) : Prop :=
  d ≠ [] ∧ ∀ c ∈ d, isDigitCh c = true

/-- Declarative form of the cross-reference pattern: a mandatory article
token `제<digits>조`, an optional sub-article suffix `의<digits>`, an
optional paragraph suffix `제<digits>항`. -/
def IsRefToken (m : List Char) : Prop :=
  ∃ d₁ o₂ o₃, DigitsNE d₁ ∧
    (o₂ = [] ∨ ∃ d₂, DigitsNE d₂ ∧ o₂ = '의' :: d₂) ∧
    (o₃ = [] ∨ ∃ d₃, DigitsNE d₃ ∧ o₃ = '제' :: d₃ ++ ['항']) ∧
    m = '제' :: d₁ ++ '조' :: o₂ ++ o₃

/-- Left-to-right non-overlapping scan semantics: `ScanSpec s ms` says the
texts `ms` are exactly the matches a leftmost scan of `s` finds: each listed
match is found by `matchRef` at its own position, no match starts strictly
before it in the text remaining at that point, and nothing matches at any
position after the last listed match. -/
def ScanSpec : List Char → List (List Char) → Prop
  | s, [] => ∀ t, t <:+ s → matchRef t = none
  | s, m :: ms => ∃ g r, s = g ++ m ++ r ∧ matchRef (m ++ r) = some (m, r) ∧
      (∀ t, t <:+ s → (m ++ r).length < t.length → matchRef t = none) ∧
      ScanSpec r ms

/-! ### Lemmas about `collapseWs` and `clean_text` -/

/-- A whitespace-collapsed text: every whitespace character is a plain space
and no two adjacent characters are both whitespace. -/
def WsNormal (l : List Char) : Prop :=
  (∀ c ∈ l, isPySpace c = true → c = ' ') ∧
  l.Chain' (fun a b => isPySpace a = true → isPySpace b = false)

theorem mem_collapseWs : ∀ (l : List Char) (c : Char), c ∈ collapseWs l → c = ' ' ∨ c ∈ l
  | [], c, h => by simp [collapseWs] at h
  | [d], c, h => by
    cases hd : isPySpace d with
    | true => simp [collapseWs, hd] at h; exact Or.inl h
    | false =>
      simp [collapseWs, hd] at h
      exact Or.inr (by simp [h])
  | d₁ :: d₂ :: rest, c, h => by
    cases h1 : isPySpace d₁ with
    | true =>
      cases h2 : isPySpace d₂ with
      | true =>
        simp only [collapseWs, h1, h2, if_true] at h
        rcases mem_collapseWs (d₂ :: rest) c h with h3 | h3
        · exact Or.inl h3
        · exact Or.inr (List.mem_cons_of_mem _ h3)
      | false =>
        simp only [collapseWs, h1, h2, if_true, if_false, Bool.false_eq_true,
          List.mem_cons] at h
        rcases h with h3 | h3
        · exact Or.inl h3
        · rcases mem_collapseWs (d₂ :: rest) c h3 with h4 | h4
          · exact Or.inl h4
          · exact Or.inr (List.mem_cons_of_mem _ h4)
    | false =>
      simp only [collapseWs, h1, Bool.false_eq_true, if_false, List.mem_cons] at h
      rcases h with h3 | h3
      · exact Or.inr (by simp [h3])
      · rcases mem_collapseWs (d₂ :: rest) c h3 with h4 | h4
        · exact Or.inl h4
        · exact Or.inr (List.mem_cons_of_mem _ h4)

theorem collapseWs_cons_nospace (c : Char) (l : List Char) (hc : isPySpace c = false) :
    ∃ t, collapseWs (c :: l) = c :: t := by
  cases l with
  | nil => exact ⟨[], by simp [collapseWs, hc]⟩
  | cons d rest => exact ⟨collapseWs (d :: rest), by simp [collapseWs, hc]⟩

theorem collapseWs_wsNormal : ∀ l : List Char, WsNormal (collapseWs l)
  | [] => by constructor <;> simp [collapseWs]
  | [d] => by
    cases hd : isPySpace d with
    | true => constructor <;> simp [collapseWs, hd]
    | false =>
      constructor
      · intro c hc hsp
        simp [collapseWs, hd] at hc
        rw [hc] at hsp
        simp [hd] at hsp
      · simp [collapseWs, hd]
  | d₁ :: d₂ :: rest => by
    have ih := collapseWs_wsNormal (d₂ :: rest)
    cases h1 : isPySpace d₁ with
    | true =>
      cases h2 : isPySpace d₂ with
      | true => simpa only [collapseWs, h1, h2, if_true] using ih
      | false =>
        simp only [collapseWs, h1, h2, if_true, Bool.false_eq_true, if_false]
        constructor
        · intro c hc hsp
          rcases List.mem_cons.mp hc with h3 | h3
          · exact h3
          · exact ih.1 c h3 hsp
        · refine List.chain'_cons'.mpr ⟨?_, ih.2⟩
          intro y hy
          obtain ⟨t, ht⟩ := collapseWs_cons_nospace d₂ rest h2
          rw [ht] at hy
          simp only [List.head?_cons, Option.mem_def, Option.some.injEq] at hy
          intro _
          rw [← hy]
          exact h2
    | false =>
      simp only [collapseWs, h1, Bool.false_eq_true, if_false]
      constructor
      · intro c hc hsp
        rcases List.mem_cons.mp hc with h3 | h3
        · rw [h3] at hsp; rw [hsp] at h1; exact absurd h1 (by simp)
        · exact ih.1 c h3 hsp
      · refine List.chain'_cons'.mpr ⟨?_, ih.2⟩
        intro y _ hsp
        rw [hsp] at h1
        exact absurd h1 (by simp)

theorem collapseWs_eq_self : ∀ l : List Char, WsNormal l → collapseWs l = l
  | [], _ => rfl
  | [d], h => by
    cases hd : isPySpace d with
    | true =>
      have := h.1 d (by simp) hd
      simp [collapseWs, hd, this]
    | false => simp [collapseWs, hd]
  | d₁ :: d₂ :: rest, h => by
    have htail : WsNormal (d₂ :: rest) :=
      ⟨fun c hc => h.1 c (List.mem_cons_of_mem _ hc), h.2.tail⟩
    have hrel : isPySpace d₁ = true → isPySpace d₂ = false :=
      (List.chain'_cons.mp h.2).1
    cases h1 : isPySpace d₁ with
    | true =>
      have h2 : isPySpace d₂ = false := hrel h1
      have hd1 : d₁ = ' ' := h.1 d₁ (by simp) h1
      simp only [collapseWs, h1, h2, if_true, Bool.false_eq_true, if_false]
      rw [collapseWs_eq_self (d₂ :: rest) htail, hd1]
    | false =>
      simp only [collapseWs, h1, Bool.false_eq_true, if_false]
      rw [collapseWs_eq_self (d₂ :: rest) htail]

theorem wsNormal_clean_text (l : List Char) : WsNormal (clean_text l) :=
  collapseWs_wsNormal _

theorem clean_text_no_circled (l : List Char) :
    ∀ c ∈ clean_text l, isCircled c = false := by
  intro c hc
  rcases mem_collapseWs _ c hc with h | h
  · rw [h]; decide
  · simp only [removeCircled, List.mem_filter, Bool.not_eq_eq_eq_not, Bool.not_true] at h
    exact h.2

theorem clean_text_no_newline (l : List Char) : '\n' ∉ clean_text l := by
  intro h
  have := (wsNormal_clean_text l).1 '\n' h (by decide)
  exact absurd this (by decide)

theorem replaceNewlines_eq_self (l : List Char) (h : '\n' ∉ l) :
    replaceNewlines l = l := by
  unfold replaceNewlines
  induction l with
  | nil => rfl
  | cons c rest ih =>
    simp only [List.map_cons]
    have hc : c ≠ '\n' := fun he => h (by simp [he])
    rw [if_neg hc, ih (fun hm => h (List.mem_cons_of_mem _ hm))]

/-! ### Lemmas about `matchRef` and the reference scan -/

theorem optEui_append (cs : List Char) : (optEui cs).1 ++ (optEui cs).2 = cs := by
  cases cs with
  | nil => rfl
  | cons c r =>
    by_cases hc : c = '의'
    · subst hc
      by_cases hd : r.takeWhile isDigitCh = []
      · simp [optEui, hd]
      · simp [optEui, hd, List.takeWhile_append_dropWhile]
    · simp [optEui, hc]

theorem optEui_shape (cs : List Char) :
    (optEui cs).1 = [] ∨ ∃ d, DigitsNE d ∧ (optEui cs).1 = '의' :: d := by
  cases cs with
  | nil => exact Or.inl rfl
  | cons c r =>
    by_cases hc : c = '의'
    · subst hc
      by_cases hd : r.takeWhile isDigitCh = []
      · simp [optEui, hd]
      · refine Or.inr ⟨r.takeWhile isDigitCh, ⟨hd, ?_⟩, by simp [optEui, hd]⟩
        intro x hx
        exact List.mem_takeWhile_imp hx
    · exact Or.inl (by simp [optEui, hc])

theorem optHang_append (cs : List Char) : (optHang cs).1 ++ (optHang cs).2 = cs := by
  cases cs with
  | nil => rfl
  | cons c r =>
    by_cases hc : c = '제'
    · subst hc
      cases hdw : r.dropWhile isDigitCh with
      | nil => simp [optHang, hdw]
      | cons c₂ r₂ =>
        by_cases hc₂ : c₂ = '항'
        · subst hc₂
          by_cases hd : r.takeWhile isDigitCh = []
          · simp [optHang, hdw, hd]
          · have hr : r.takeWhile isDigitCh ++ '항' :: r₂ = r := by
              rw [← hdw, List.takeWhile_append_dropWhile]
            simp only [optHang, hdw, hd, if_true, if_false, ite_false, ite_true]
            simp only [List.cons_append, List.append_assoc, List.singleton_append,
              List.nil_append]
            rw [hr]
        · simp [optHang, hdw, hc₂]
    · simp [optHang, hc]

theorem optHang_shape (cs : List Char) :
    (optHang cs).1 = [] ∨ ∃ d, DigitsNE d ∧ (optHang cs).1 = '제' :: d ++ ['항'] := by
  cases cs with
  | nil => exact Or.inl rfl
  | cons c r =>
    by_cases hc : c = '제'
    · subst hc
      cases hdw : r.dropWhile isDigitCh with
      | nil => simp [optHang, hdw]
      | cons c₂ r₂ =>
        by_cases hc₂ : c₂ = '항'
        · subst hc₂
          by_cases hd : r.takeWhile isDigitCh = []
          · simp [optHang, hdw, hd]
          · refine Or.inr ⟨r.takeWhile isDigitCh, ⟨hd, ?_⟩, by simp [optHang, hdw, hd]⟩
            intro x hx
            exact List.mem_takeWhile_imp hx
        · exact Or.inl (by simp [optHang, hdw, hc₂])
    · exact Or.inl (by simp [optHang, hc])

theorem matchRef_sound (cs m r : List Char) (h : matchRef cs = some (m, r)) :
    cs = m ++ r ∧ IsRefToken m := by
  cases cs with
  | nil => simp [matchRef] at h
  | cons c rest =>
    by_cases hc : c = '제'
    swap
    · simp [matchRef, hc] at h
    subst hc
    by_cases hds : rest.takeWhile isDigitCh = []
    · simp [matchRef, hds] at h
    cases hdw : rest.dropWhile isDigitCh with
    | nil => simp [matchRef, hds, hdw] at h
    | cons c₂ rest₂ =>
      by_cases hc₂ : c₂ = '조'
      swap
      · simp [matchRef, hds, hdw, hc₂] at h
      subst hc₂
      simp only [matchRef, hds, hdw, if_true, ite_true, if_false, ite_false,
        Option.some.injEq, Prod.mk.injEq] at h
      obtain ⟨hm, hr⟩ := h
      have hrest : rest.takeWhile isDigitCh ++ '조' :: rest₂ = rest := by
        rw [← hdw, List.takeWhile_append_dropWhile]
      constructor
      · rw [← hm, ← hr]
        have h₂ := optEui_append rest₂
        have h₃ := optHang_append (optEui rest₂).2
        simp only [List.cons_append, List.append_assoc]
        rw [h₃, h₂, hrest]
      · refine ⟨rest.takeWhile isDigitCh, (optEui rest₂).1, (optHang (optEui rest₂).2).1,
          ⟨hds, fun x hx => List.mem_takeWhile_imp hx⟩,
          optEui_shape rest₂, optHang_shape (optEui rest₂).2, ?_⟩
        rw [← hm]

theorem isRefToken_ne_nil (m : List Char) (h : IsRefToken m) : m ≠ [] := by
  obtain ⟨d₁, o₂, o₃, _, _, _, hm⟩ := h
  rw [hm]
  simp

theorem matchRef_rest_length (cs m r : List Char) (h : matchRef cs = some (m, r)) :
    r.length < cs.length := by
  obtain ⟨heq, htok⟩ := matchRef_sound cs m r h
  have hne := isRefToken_ne_nil m htok
  rw [heq, List.length_append]
  have : 0 < m.length := List.length_pos.mpr hne
  omega

theorem findRefsF_token : ∀ (fuel : Nat) (cs m : List Char),
    m ∈ findRefsF fuel cs → IsRefToken m
  | 0, _, _, h => by simp [findRefsF] at h
  | _ + 1, [], _, h => by simp [findRefsF] at h
  | fuel + 1, c :: rest, m, h => by
    cases hmr : matchRef (c :: rest) with
    | none =>
      rw [findRefsF, hmr] at h
      exact findRefsF_token fuel rest m h
    | some p =>
      rw [findRefsF, hmr] at h
      rcases List.mem_cons.mp h with h₁ | h₁
      · exact h₁ ▸ (matchRef_sound _ _ _ hmr).2
      · exact findRefsF_token fuel p.2 m h₁

theorem scanSpec_cons (c : Char) (rest : List Char) (L : List (List Char))
    (hn : matchRef (c :: rest) = none) (h : ScanSpec rest L) :
    ScanSpec (c :: rest) L := by
  cases L with
  | nil =>
    intro t ht
    rcases List.suffix_cons_iff.mp ht with h₁ | h₁
    · exact h₁ ▸ hn
    · exact h t h₁
  | cons m ms =>
    obtain ⟨g, r, heq, hm, hfail, hrec⟩ := h
    refine ⟨c :: g, r, by simp [heq], hm, ?_, hrec⟩
    intro t ht hlen
    rcases List.suffix_cons_iff.mp ht with h₁ | h₁
    · exact h₁ ▸ hn
    · exact hfail t h₁ hlen

theorem findRefsF_scanSpec : ∀ (fuel : Nat) (cs : List Char),
    cs.length ≤ fuel → ScanSpec cs (findRefsF fuel cs)
  | 0, cs, hf => by
    have : cs = [] := List.length_eq_zero.mp (Nat.le_zero.mp hf)
    subst this
    intro t ht
    rw [List.suffix_nil.mp ht]
    rfl
  | _ + 1, [], _ => by
    intro t ht
    rw [List.suffix_nil.mp ht]
    rfl
  | fuel + 1, c :: rest, hf => by
    cases hmr : matchRef (c :: rest) with
    | none =>
      rw [findRefsF, hmr]
      have hrl : (c :: rest).length = rest.length + 1 := by simp
      exact scanSpec_cons c rest _ hmr (findRefsF_scanSpec fuel rest (by omega))
    | some p =>
      rw [findRefsF, hmr]
      obtain ⟨heq, _⟩ := matchRef_sound _ _ _ hmr
      refine ⟨[], p.2, by simpa using heq, ?_, ?_, ?_⟩
      · rw [← heq]
        simpa using hmr
      · intro t ht hlen
        exfalso
        have h₁ : t.length ≤ (c :: rest).length := ht.length_le
        rw [heq] at h₁
        omega
      · have hlt := matchRef_rest_length _ _ _ hmr
        have hrl : (c :: rest).length = rest.length + 1 := by simp
        exact findRefsF_scanSpec fuel p.2 (by omega)

/-! ### Lemmas about the segmenter -/

theorem articleIndicesFrom_ge : ∀ (i : Nat) (ns : List PNode) (p : Nat × List Char),
    p ∈ articleIndicesFrom i ns → i ≤ p.1
  | _, [], _, h => by simp [articleIndicesFrom] at h
  | i, n :: rest, p, h => by
    cases hm : matchArticleStart n.strippedText with
    | some aid =>
      simp only [articleIndicesFrom, hm] at h
      rcases List.mem_cons.mp h with h₁ | h₁
      · simp [h₁]
      · exact Nat.le_of_succ_le (articleIndicesFrom_ge (i + 1) rest p h₁)
    | none =>
      simp only [articleIndicesFrom, hm] at h
      exact Nat.le_of_succ_le (articleIndicesFrom_ge (i + 1) rest p h)

theorem articleIndicesFrom_lt : ∀ (i : Nat) (ns : List PNode) (p : Nat × List Char),
    p ∈ articleIndicesFrom i ns → p.1 < i + ns.length
  | _, [], _, h => by simp [articleIndicesFrom] at h
  | i, n :: rest, p, h => by
    cases hm : matchArticleStart n.strippedText with
    | some aid =>
      simp only [articleIndicesFrom, hm] at h
      rcases List.mem_cons.mp h with h₁ | h₁
      · simp [h₁]
      · have := articleIndicesFrom_lt (i + 1) rest p h₁
        simp only [List.length_cons]
        omega
    | none =>
      simp only [articleIndicesFrom, hm] at h
      have := articleIndicesFrom_lt (i + 1) rest p h
      simp only [List.length_cons]
      omega

theorem articleIndicesFrom_chain : ∀ (i : Nat) (ns : List PNode),
    (articleIndicesFrom i ns).Chain' (fun a b => a.1 < b.1)
  | _, [] => by simp [articleIndicesFrom]
  | i, n :: rest => by
    cases hm : matchArticleStart n.strippedText with
    | some aid =>
      simp only [articleIndicesFrom, hm]
      refine List.chain'_cons'.mpr ⟨?_, articleIndicesFrom_chain (i + 1) rest⟩
      intro y hy
      have := articleIndicesFrom_ge (i + 1) rest y (List.mem_of_mem_head? hy)
      simpa using this
    | none =>
      simp only [articleIndicesFrom, hm]
      exact articleIndicesFrom_chain (i + 1) rest

theorem articleIndicesFrom_eq_nil : ∀ (i : Nat) (ns : List PNode),
    (∀ n ∈ ns, matchArticleStart n.strippedText = none) →
    articleIndicesFrom i ns = []
  | _, [], _ => rfl
  | i, n :: rest, h => by
    have hm := h n (by simp)
    simp only [articleIndicesFrom, hm]
    exact articleIndicesFrom_eq_nil (i + 1) rest (fun x hx => h x (List.mem_cons_of_mem _ hx))

theorem buildChunks_length (nodes : List PNode) :
    ∀ ms : List (Nat × List Char), (buildChunks nodes ms).length = ms.length
  | [] => rfl
  | (s, aid) :: rest => by
    simp only [buildChunks, List.length_cons]
    rw [buildChunks_length nodes rest]

theorem chunkBounds_length (len : Nat) :
    ∀ ms : List (Nat × List Char), (chunkBounds len ms).length = ms.length
  | [] => rfl
  | (s, aid) :: rest => by
    simp only [chunkBounds, List.length_cons]
    rw [chunkBounds_length len rest]

theorem chunkSpan_append (nodes : List PNode) (s e : Nat) (h : s ≤ e) :
    chunkSpan nodes s e ++ nodes.drop e = nodes.drop s := by
  unfold chunkSpan
  have hdrop : nodes.drop e = (nodes.drop s).drop (e - s) := by
    rw [List.drop_drop]
    congr 1
    omega
  rw [hdrop, List.take_append_drop]

theorem chunkSpan_full (nodes : List PNode) (s : Nat) :
    chunkSpan nodes s nodes.length = nodes.drop s := by
  unfold chunkSpan
  apply List.take_of_length_le
  rw [List.length_drop]

theorem spans_flatten (nodes : List PNode) :
    ∀ (rest : List (Nat × List Char)) (s₀ : Nat) (aid : List Char),
      ((s₀, aid) :: rest).Chain' (fun a b => a.1 < b.1) →
      (∀ p ∈ (s₀, aid) :: rest, p.1 ≤ nodes.length) →
      ((chunkBounds nodes.length ((s₀, aid) :: rest)).map
        (fun b => chunkSpan nodes b.1 b.2)).flatten = nodes.drop s₀
  | [], s₀, aid, _, _ => by
    simp only [chunkBounds, List.map_cons, List.map_nil, List.flatten_cons,
      List.flatten_nil, List.append_nil]
    exact chunkSpan_full nodes s₀
  | (s₁, a₁) :: rest, s₀, aid, hchain, hle => by
    have hlt : s₀ < s₁ := (List.chain'_cons.mp hchain).1
    have ih := spans_flatten nodes rest s₁ a₁ (List.chain'_cons.mp hchain).2
      (fun p hp => hle p (List.mem_cons_of_mem _ hp))
    simp only [chunkBounds, List.map_cons, List.flatten_cons] at ih ⊢
    rw [ih]
    exact chunkSpan_append nodes s₀ s₁ (Nat.le_of_lt hlt)

theorem chunkBounds_valid (len : Nat) :
    ∀ ms : List (Nat × List Char), ms.Chain' (fun a b => a.1 < b.1) →
      (∀ p ∈ ms, p.1 < len) →
      ∀ b ∈ chunkBounds len ms, b.1 < b.2 ∧ b.2 ≤ len
  | [], _, _, b, hb => by simp [chunkBounds] at hb
  | (s, aid) :: rest, hchain, hlt, b, hb => by
    simp only [chunkBounds, List.mem_cons] at hb
    rcases hb with hb | hb
    · cases rest with
      | nil =>
        rw [hb]
        exact ⟨hlt (s, aid) (by simp), Nat.le_refl len⟩
      | cons q rest' =>
        rw [hb]
        refine ⟨(List.chain'_cons.mp hchain).1, ?_⟩
        exact Nat.le_of_lt (hlt q (List.mem_cons_of_mem _ (by simp)))
    · exact chunkBounds_valid len rest (List.Chain'.tail hchain)
        (fun p hp => hlt p (List.mem_cons_of_mem _ hp)) b hb

theorem zip_buildChunks_spec (nodes : List PNode) :
    ∀ ms : List (Nat × List Char),
      (∀ b ∈ chunkBounds nodes.length ms, b.1 < b.2 ∧ b.2 ≤ nodes.length) →
      ∀ c sp, (c, sp) ∈ (buildChunks nodes ms).zip
        ((chunkBounds nodes.length ms).map (fun b => chunkSpan nodes b.1 b.2)) →
      ∃ s e aid, s < e ∧ e ≤ nodes.length ∧ c = mkChunk nodes s e aid ∧
        sp = chunkSpan nodes s e
  | [], _, c, sp, h => by simp [buildChunks, chunkBounds] at h
  | (s, aid) :: rest, hb, c, sp, h => by
    cases rest with
    | nil =>
      simp only [buildChunks, chunkBounds, List.map_cons, List.map_nil,
        List.zip_cons_cons, List.zip_nil_right, List.mem_cons, List.mem_singleton] at h
      rcases h with h | h
      · obtain ⟨hc, hsp⟩ := Prod.mk.injEq .. ▸ h
        have hv := hb (s, nodes.length) (by simp [chunkBounds])
        exact ⟨s, nodes.length, aid, hv.1, hv.2, by rw [hc], by rw [hsp]⟩
      · simp at h
    | cons q rest' =>
      obtain ⟨q1, q2⟩ := q
      have hz : (buildChunks nodes ((s, aid) :: (q1, q2) :: rest')).zip
          ((chunkBounds nodes.length ((s, aid) :: (q1, q2) :: rest')).map
            (fun b => chunkSpan nodes b.1 b.2)) =
          (mkChunk nodes s q1 aid, chunkSpan nodes s q1) ::
          (buildChunks nodes ((q1, q2) :: rest')).zip
            ((chunkBounds nodes.length ((q1, q2) :: rest')).map
              (fun b => chunkSpan nodes b.1 b.2)) := rfl
      rw [hz] at h
      rcases List.mem_cons.mp h with h₁ | h₁
      · obtain ⟨hc, hsp⟩ := Prod.mk.injEq .. ▸ h₁
        have hv := hb (s, q1) (List.mem_cons_self _ _)
        exact ⟨s, q1, aid, hv.1, hv.2, by rw [hc], by rw [hsp]⟩
      · exact zip_buildChunks_spec nodes ((q1, q2) :: rest')
          (fun b hbm => hb b (List.mem_cons_of_mem _ hbm)) c sp h₁

theorem parse_chunk_spec (nodes : List PNode) (c : ArticleChunk) (sp : List PNode)
    (h : (c, sp) ∈ (parse_html_by_article_sections nodes).zip (chunkSpans nodes)) :
    ∃ s e aid, s < e ∧ e ≤ nodes.length ∧ c = mkChunk nodes s e aid ∧
      sp = chunkSpan nodes s e := by
  refine zip_buildChunks_spec nodes (articleIndices nodes) ?_ c sp h
  refine chunkBounds_valid nodes.length (articleIndices nodes)
    (articleIndicesFrom_chain 0 nodes) ?_
  intro p hp
  have := articleIndicesFrom_lt 0 nodes p hp
  simpa using this

theorem mem_exists_zip {α β : Type} :
    ∀ (l₁ : List α) (l₂ : List β), l₁.length = l₂.length →
      ∀ a ∈ l₁, ∃ b, (a, b) ∈ l₁.zip l₂
  | [], _, _, a, ha => by simp at ha
  | x :: xs, [], hlen, a, ha => by simp at hlen
  | x :: xs, y :: ys, hlen, a, ha => by
    rcases List.mem_cons.mp ha with h | h
    · exact ⟨y, by simp [h]⟩
    · obtain ⟨b, hb⟩ := mem_exists_zip xs ys (by simpa using hlen) a h
      exact ⟨b, List.mem_cons_of_mem _ hb⟩

theorem parse_length_eq_spans (nodes : List PNode) :
    (parse_html_by_article_sections nodes).length = (chunkSpans nodes).length := by
  unfold parse_html_by_article_sections chunkSpans
  rw [buildChunks_length, List.length_map, chunkBounds_length]

theorem mem_parse_spec (nodes : List PNode) (c : ArticleChunk)
    (h : c ∈ parse_html_by_article_sections nodes) :
    ∃ s e aid, s < e ∧ e ≤ nodes.length ∧ c = mkChunk nodes s e aid := by
  obtain ⟨sp, hsp⟩ := mem_exists_zip _ _ (parse_length_eq_spans nodes) c h
  obtain ⟨s, e, aid, h1, h2, h3, _⟩ := parse_chunk_spec nodes c sp hsp
  exact ⟨s, e, aid, h1, h2, h3⟩

theorem chunkSpan_length (nodes : List PNode) (s e : Nat) (h2 : e ≤ nodes.length) :
    (chunkSpan nodes s e).length = e - s := by
  unfold chunkSpan
  rw [List.length_take, List.length_drop]
  omega

theorem chunkSpan_ne_nil (nodes : List PNode) (s e : Nat) (h1 : s < e)
    (h2 : e ≤ nodes.length) : chunkSpan nodes s e ≠ [] := by
  intro h
  have := chunkSpan_length nodes s e h2
  rw [h] at this
  simp at this
  omega

theorem chunkSpan_get (nodes : List PNode) (s e k : Nat)
    (hk : k < (chunkSpan nodes s e).length) (hk2 : s + k < nodes.length) :
    (chunkSpan nodes s e).get ⟨k, hk⟩ = nodes.get ⟨s + k, hk2⟩ := by
  simp only [chunkSpan, List.get_eq_getElem, List.getElem_take, List.getElem_drop]

theorem getD_default_eq_get (nodes : List PNode) (k : Nat) (hk : k < nodes.length) :
    nodes.getD k default = nodes.get ⟨k, hk⟩ := by
  rw [List.getD_eq_getElem _ _ hk]
  simp

theorem chunkSpan_head (nodes : List PNode) (s e : Nat) (h1 : s < e)
    (h2 : e ≤ nodes.length) (hne : chunkSpan nodes s e ≠ []) :
    (chunkSpan nodes s e).head hne = nodes.getD s default := by
  have hs : s < nodes.length := by omega
  have hk : 0 < (chunkSpan nodes s e).length := List.length_pos.mpr hne
  have hhead : (chunkSpan nodes s e).head hne = (chunkSpan nodes s e).get ⟨0, hk⟩ := by
    simp [List.head_eq_getElem_zero]
  rw [hhead, chunkSpan_get nodes s e 0 hk (by omega), getD_default_eq_get nodes s hs]
  simp

theorem chunkSpan_getLast (nodes : List PNode) (s e : Nat) (h1 : s < e)
    (h2 : e ≤ nodes.length) (hne : chunkSpan nodes s e ≠ []) :
    (chunkSpan nodes s e).getLast hne = nodes.getD (e - 1) default := by
  have hlen := chunkSpan_length nodes s e h2
  have hk : (chunkSpan nodes s e).length - 1 < (chunkSpan nodes s e).length := by
    have := List.length_pos.mpr hne
    omega
  have hlast : (chunkSpan nodes s e).getLast hne =
      (chunkSpan nodes s e).get ⟨(chunkSpan nodes s e).length - 1, hk⟩ :=
    List.getLast_eq_get _ hne
  have hk2 : s + ((chunkSpan nodes s e).length - 1) < nodes.length := by omega
  rw [hlast, chunkSpan_get nodes s e _ hk hk2,
    getD_default_eq_get nodes (e - 1) (by omega)]
  have : s + ((chunkSpan nodes s e).length - 1) = e - 1 := by omega
  simp [this]

/-! ### Helper lemmas for the claim theorems -/

theorem chunkBounds_map_fst (len : Nat) :
    ∀ ms : List (Nat × List Char),
      (chunkBounds len ms).map Prod.fst = ms.map Prod.fst
  | [] => rfl
  | (s, aid) :: rest => by
    have ih := chunkBounds_map_fst len rest
    cases rest with
    | nil => rfl
    | cons q rest' =>
      obtain ⟨q1, q2⟩ := q
      have hz : chunkBounds len ((s, aid) :: (q1, q2) :: rest') =
          (s, q1) :: chunkBounds len ((q1, q2) :: rest') := rfl
      rw [hz, List.map_cons, ih, List.map_cons]
      simp

theorem chunkBounds_map_snd (len : Nat) :
    ∀ (rest : List (Nat × List Char)) (s : Nat) (aid : List Char),
      (chunkBounds len ((s, aid) :: rest)).map Prod.snd =
        rest.map Prod.fst ++ [len]
  | [], _, _ => rfl
  | (q1, q2) :: rest', s, aid => by
    have ih := chunkBounds_map_snd len rest' q1 q2
    have hz : chunkBounds len ((s, aid) :: (q1, q2) :: rest') =
        (s, q1) :: chunkBounds len ((q1, q2) :: rest') := rfl
    rw [hz, List.map_cons, ih, List.map_cons, List.cons_append]

theorem mkChunk_article_id (nodes : List PNode) (s e : Nat) (aid : List Char) :
    (mkChunk nodes s e aid).article_id = aid := rfl

theorem mkChunk_start_id (nodes : List PNode) (s e : Nat) (aid : List Char) :
    (mkChunk nodes s e aid).start_id = nodeId (nodes.getD s default) := rfl

theorem mkChunk_end_id (nodes : List PNode) (s e : Nat) (aid : List Char) :
    (mkChunk nodes s e aid).end_id = nodeId (nodes.getD (e - 1) default) := rfl

theorem mkChunk_content (nodes : List PNode) (s e : Nat) (aid : List Char) :
    (mkChunk nodes s e aid).content =
      List.intercalate ['\n'] ((chunkSpan nodes s e).map (fun n => removeBr n.sepText)) := rfl

theorem mkChunk_paragraph_ids (nodes : List PNode) (s e : Nat) (aid : List Char) :
    (mkChunk nodes s e aid).paragraph_ids = (chunkSpan nodes s e).map nodeId := rfl

theorem mkChunk_relation_parts (nodes : List PNode) (s e : Nat) (aid : List Char) :
    (mkChunk nodes s e aid).relation_parts =
      (((chunkSpan nodes s e).map nodeRefs).flatten).drop 1 := rfl

theorem head_map_pnode (f : PNode → List Char) :
    ∀ (l : List PNode) (hne : l ≠ []) (hne2 : l.map f ≠ []),
      (l.map f).head hne2 = f (l.head hne)
  | [], hne, _ => absurd rfl hne
  | _ :: _, _, _ => rfl

theorem digit_not_circled (c : Char) (h : isDigitCh c = true) : isCircled c = false := by
  simp only [isDigitCh, Bool.and_eq_true, decide_eq_true_eq] at h
  simp only [isCircled, Bool.and_eq_false_iff, decide_eq_false_iff_not, Nat.not_le]
  omega

theorem isRefToken_not_circled (m : List Char) (h : IsRefToken m) :
    ∀ c ∈ m, isCircled c = false := by
  obtain ⟨d₁, o₂, o₃, hd₁, ho₂, ho₃, hm⟩ := h
  intro c hc
  rw [hm] at hc
  simp only [List.mem_cons, List.mem_append] at hc
  rcases hc with ((h1 | h1) | h1 | h1) | h1
  · rw [h1]; decide
  · exact digit_not_circled c (hd₁.2 c h1)
  · rw [h1]; decide
  · rcases ho₂ with he | ⟨d₂, hd₂, he⟩
    · rw [he] at h1; simp at h1
    · rw [he] at h1
      rcases List.mem_cons.mp h1 with h2 | h2
      · rw [h2]; decide
      · exact digit_not_circled c (hd₂.2 c h2)
  · rcases ho₃ with he | ⟨d₃, hd₃, he⟩
    · rw [he] at h1; simp at h1
    · rw [he] at h1
      simp only [List.mem_cons, List.mem_append, List.mem_singleton] at h1
      rcases h1 with (h2 | h2) | h2 | h2
      · rw [h2]; decide
      · exact digit_not_circled c (hd₃.2 c h2)
      · rw [h2]; decide
      · simp at h2

/-! ### The claim theorems -/

/-- C1: for every input document, segmentation returns exactly as many chunks
as there are article-start markers; each chunk's bounds start at its own
marker's node index and end at the next marker's index (the last chunk ending
at the document length); and when at least one marker exists, the
pre-first-marker node prefix followed by the concatenation of all chunk node
spans is exactly the full node sequence — so the spans are contiguous,
pairwise disjoint, exhaustive together with the prefix, and the prefix
belongs to no chunk. -/
theorem claim1_segmentation (nodes : List PNode) :
    (parse_html_by_article_sections nodes).length = (articleIndices nodes).length ∧
    (chunkSpans nodes).length = (articleIndices nodes).length ∧
    (chunkBounds nodes.length (articleIndices nodes)).map Prod.fst =
      (articleIndices nodes).map Prod.fst ∧
    (∀ (s₀ : Nat) (aid : List Char) (rest : List (Nat × List Char)),
      articleIndices nodes = (s₀, aid) :: rest →
      (chunkBounds nodes.length (articleIndices nodes)).map Prod.snd =
        rest.map Prod.fst ++ [nodes.length] ∧
      nodes.take s₀ ++ (chunkSpans nodes).flatten = nodes) := by
  refine ⟨buildChunks_length nodes _, ?_, chunkBounds_map_fst _ _, ?_⟩
  · unfold chunkSpans
    rw [List.length_map, chunkBounds_length]
  · intro s₀ aid rest h
    constructor
    · rw [h]
      exact chunkBounds_map_snd nodes.length rest s₀ aid
    · have hchain : ((s₀, aid) :: rest).Chain' (fun a b => a.1 < b.1) :=
        h ▸ articleIndicesFrom_chain 0 nodes
      have hle : ∀ p ∈ (s₀, aid) :: rest, p.1 ≤ nodes.length := by
        intro p hp
        have : p ∈ articleIndices nodes := h ▸ hp
        have := articleIndicesFrom_lt 0 nodes p this
        omega
      have hflat := spans_flatten nodes rest s₀ aid hchain hle
      unfold chunkSpans
      rw [h, hflat, List.take_append_drop]

/-- Witness for C1: on the sample document the prefix before the first
marker plus the flattened chunk spans reassemble the node sequence. -/
theorem claim1_witness :
    sampleDoc.take 1 ++ (chunkSpans sampleDoc).flatten = sampleDoc :=
  ((claim1_segmentation sampleDoc).2.2.2 1 "제1조".data
    [(3, "제2조".data)] (by decide)).2

/-- C2: for every produced chunk (paired with its node span),
`relation_parts` is the concatenation, in node order and per-node discovery
order, of the reference matches extracted from the chunk's normalized node
texts, with exactly its first element removed — removed unconditionally,
whether or not it is the chunk's own leading label. -/
theorem claim2_relation_parts (nodes : List PNode) :
    (parse_html_by_article_sections nodes).length = (chunkSpans nodes).length ∧
    ∀ c sp, (c, sp) ∈ (parse_html_by_article_sections nodes).zip (chunkSpans nodes) →
      c.relation_parts = ((sp.map nodeRefs).flatten).drop 1 := by
  refine ⟨parse_length_eq_spans nodes, ?_⟩
  intro c sp h
  obtain ⟨s, e, aid, _, _, hc, hsp⟩ := parse_chunk_spec nodes c sp h
  subst hsp
  rw [hc, mkChunk_relation_parts]

/-- Witness for C2 on the first chunk of the sample document. -/
theorem claim2_witness :
    (mkChunk sampleDoc 1 3 "제1조".data).relation_parts =
      (((chunkSpan sampleDoc 1 3).map nodeRefs).flatten).drop 1 :=
  (claim2_relation_parts sampleDoc).2 _ _ (by decide)

/-- C3: a chunk whose nodes yield at most one extracted reference match (in
particular zero, or exactly one — its own label) gets an empty
`relation_parts`; the drop-first step is total and never under-flows. -/
theorem claim3_drop_guard (nodes : List PNode) :
    ∀ c sp, (c, sp) ∈ (parse_html_by_article_sections nodes).zip (chunkSpans nodes) →
      ((sp.map nodeRefs).flatten).length ≤ 1 → c.relation_parts = [] := by
  intro c sp h hlen
  obtain ⟨s, e, aid, _, _, hc, hsp⟩ := parse_chunk_spec nodes c sp h
  subst hsp
  rw [hc, mkChunk_relation_parts]
  exact List.drop_eq_nil_of_le hlen

/-- Witness for C3: the second sample chunk has exactly one match (its own
label) and empty `relation_parts`. -/
theorem claim3_witness :
    (mkChunk sampleDoc 3 4 "제2조".data).relation_parts = [] :=
  claim3_drop_guard sampleDoc (mkChunk sampleDoc 3 4 "제2조".data)
    (chunkSpan sampleDoc 3 4) (by decide) (by decide)

/-- C4: a document in which no node's stripped text matches the
article-start pattern yields the empty chunk sequence (the function is total,
so no exception path exists). -/
theorem claim4_empty_output (nodes : List PNode)
    (h : ∀ n ∈ nodes, matchArticleStart n.strippedText = none) :
    parse_html_by_article_sections nodes = [] := by
  unfold parse_html_by_article_sections articleIndices
  rw [articleIndicesFrom_eq_nil 0 nodes h]
  rfl

/-- Witness for C4 on a one-node document with no article marker. -/
theorem claim4_witness :
    parse_html_by_article_sections [⟨"전문".data, "전문".data, some "p0".data⟩] = [] :=
  claim4_empty_output _ (by decide)

/-- C5: for every produced chunk, `content` is the newline-join of exactly
one text fragment per span node, `paragraph_ids` has exactly one entry per
span node, and the two are parallel: the i-th fragment is the extracted text
of the node whose identifier is the i-th entry of `paragraph_ids`. -/
theorem claim5_content_parallel (nodes : List PNode) :
    ∀ c sp, (c, sp) ∈ (parse_html_by_article_sections nodes).zip (chunkSpans nodes) →
      c.content = List.intercalate ['\n'] (sp.map (fun n => removeBr n.sepText)) ∧
      c.paragraph_ids = sp.map nodeId ∧
      (sp.map (fun n => removeBr n.sepText)).length = sp.length ∧
      c.paragraph_ids.length = sp.length ∧
      ∀ (k : Nat) (hk : k < sp.length)
        (hk1 : k < (sp.map (fun n => removeBr n.sepText)).length)
        (hk2 : k < c.paragraph_ids.length),
        (sp.map (fun n => removeBr n.sepText)).get ⟨k, hk1⟩ =
          removeBr ((sp.get ⟨k, hk⟩).sepText) ∧
        c.paragraph_ids.get ⟨k, hk2⟩ = nodeId (sp.get ⟨k, hk⟩) := by
  intro c sp h
  obtain ⟨s, e, aid, _, _, hc, hsp⟩ := parse_chunk_spec nodes c sp h
  subst hc
  subst hsp
  refine ⟨rfl, rfl, by simp, ?_, ?_⟩
  · rw [mkChunk_paragraph_ids, List.length_map]
  · intro k hk hk1 hk2
    constructor
    · simp
    · show (List.map nodeId (chunkSpan nodes s e)).get ⟨k, hk2⟩ =
        nodeId ((chunkSpan nodes s e).get ⟨k, hk⟩)
      simp

/-- Witness for C5 on the first chunk of the sample document. -/
theorem claim5_witness :
    (mkChunk sampleDoc 1 3 "제1조".data).paragraph_ids =
      (chunkSpan sampleDoc 1 3).map nodeId :=
  (claim5_content_parallel sampleDoc _ _ (by decide)).2.1

/-- C6: normalized text never contains a circled-numeral character
(U+2460–U+2473), and no such character ever occurs inside any match returned
by the reference extractor. -/
theorem claim6_no_circled (l : List Char) :
    (∀ c ∈ clean_text l, isCircled c = false) ∧
    (∀ m ∈ get_relation_parts l, ∀ c ∈ m, isCircled c = false) := by
  refine ⟨clean_text_no_circled l, ?_⟩
  intro m hm
  exact isRefToken_not_circled m (findRefsF_token l.length l m hm)

/-- Witness for C6: the character surviving normalization of `①a` is not
circled. -/
theorem claim6_witness : isCircled 'a' = false :=
  (claim6_no_circled ['①', 'a']).1 'a' (by decide)

/-- C7: the extractor returns exactly the non-overlapping matches of the
pattern (mandatory article number, optional sub-article suffix, optional
paragraph suffix) in left-to-right order with duplicates preserved:
`ScanSpec` says each returned match is found at its own position, nothing
matches strictly earlier in the remaining text, and nothing matches after the
last match; and every returned match has the declarative token shape. -/
theorem claim7_scan (l : List Char) :
    ScanSpec l (get_relation_parts l) ∧
    ∀ m ∈ get_relation_parts l, IsRefToken m :=
  ⟨findRefsF_scanSpec l.length l (Nat.le_refl _),
   fun m hm => findRefsF_token l.length l m hm⟩

/-- Witness for C7: `제1조` is returned on input `제1조` and has the token
shape. -/
theorem claim7_witness : IsRefToken ['제', '1', '조'] :=
  (claim7_scan ['제', '1', '조']).2 ['제', '1', '조'] (by decide)

/-- C8: normalization is idempotent. -/
theorem claim8_idempotent (l : List Char) :
    clean_text (clean_text l) = clean_text l := by
  have h1 : replaceNewlines (clean_text l) = clean_text l :=
    replaceNewlines_eq_self _ (clean_text_no_newline l)
  have h2 : removeCircled (clean_text l) = clean_text l := by
    apply List.filter_eq_self.mpr
    intro a ha
    simp [clean_text_no_circled l a ha]
  show collapseWs (removeCircled (replaceNewlines (clean_text l))) = clean_text l
  rw [h1, h2]
  exact collapseWs_eq_self _ (wsNormal_clean_text l)

/-- C9: a span node without an identifier attribute is recorded as the
literal `"unknown"` — in `paragraph_ids`, and in `start_id`/`end_id` when it
is the first/last node of the span; the construction is total. -/
theorem claim9_unknown (nodes : List PNode) :
    ∀ c sp, (c, sp) ∈ (parse_html_by_article_sections nodes).zip (chunkSpans nodes) →
      (∀ (k : Nat) (hk : k < sp.length) (hk2 : k < c.paragraph_ids.length),
        (sp.get ⟨k, hk⟩).idAttr = none →
        c.paragraph_ids.get ⟨k, hk2⟩ = "unknown".data) ∧
      (∀ hne : sp ≠ [],
        ((sp.head hne).idAttr = none → c.start_id = "unknown".data) ∧
        ((sp.getLast hne).idAttr = none → c.end_id = "unknown".data)) := by
  intro c sp h
  obtain ⟨s, e, aid, h1, h2, hc, hsp⟩ := parse_chunk_spec nodes c sp h
  subst hc
  subst hsp
  constructor
  · intro k hk hk2 hid
    show (List.map nodeId (chunkSpan nodes s e)).get ⟨k, hk2⟩ = "unknown".data
    have hmap : (List.map nodeId (chunkSpan nodes s e)).get ⟨k, hk2⟩ =
        nodeId ((chunkSpan nodes s e).get ⟨k, hk⟩) := by simp
    rw [hmap]
    simp only [List.get_eq_getElem] at hid
    simp [nodeId, hid]
  · intro hne
    constructor
    · intro hid
      rw [mkChunk_start_id, ← chunkSpan_head nodes s e h1 h2 hne]
      simp [nodeId, hid]
    · intro hid
      rw [mkChunk_end_id, ← chunkSpan_getLast nodes s e h1 h2 hne]
      simp [nodeId, hid]

/-- Witness for C9: the id-less node of the sample document is recorded as
`"unknown"`. -/
theorem claim9_witness :
    (mkChunk sampleDoc 3 4 "제2조".data).paragraph_ids.get ⟨0, by decide⟩ =
      "unknown".data :=
  (claim9_unknown sampleDoc (mkChunk sampleDoc 3 4 "제2조".data)
    (chunkSpan sampleDoc 3 4) (by decide)).1 0 (by decide) (by decide) (by decide)

/-- C10: every produced chunk spans at least one node, so `paragraph_ids` is
nonempty, `start_id` is its first element and `end_id` its last. -/
theorem claim10_span_nonempty (nodes : List PNode) :
    ∀ c ∈ parse_html_by_article_sections nodes,
      ∃ hne : c.paragraph_ids ≠ [],
        c.start_id = c.paragraph_ids.head hne ∧
        c.end_id = c.paragraph_ids.getLast hne := by
  intro c hc
  obtain ⟨s, e, aid, h1, h2, hcEq⟩ := mem_parse_spec nodes c hc
  subst hcEq
  have hspan : chunkSpan nodes s e ≠ [] := chunkSpan_ne_nil nodes s e h1 h2
  have hne : (mkChunk nodes s e aid).paragraph_ids ≠ [] := by
    rw [mkChunk_paragraph_ids]
    simp only [ne_eq, List.map_eq_nil_iff]
    exact hspan
  refine ⟨hne, ?_, ?_⟩
  · show nodeId (nodes.getD s default) =
      ((chunkSpan nodes s e).map nodeId).head hne
    rw [head_map_pnode nodeId (chunkSpan nodes s e) hspan hne]
    rw [chunkSpan_head nodes s e h1 h2]
  · show nodeId (nodes.getD (e - 1) default) =
      ((chunkSpan nodes s e).map nodeId).getLast hne
    rw [List.getLast_map nodeId (chunkSpan nodes s e) hne]
    rw [chunkSpan_getLast nodes s e h1 h2]

/-- Witness for C10 on the first chunk of the sample document. -/
theorem claim10_witness :
    ∃ hne : (mkChunk sampleDoc 1 3 "제1조".data).paragraph_ids ≠ [],
      (mkChunk sampleDoc 1 3 "제1조".data).start_id =
        (mkChunk sampleDoc 1 3 "제1조".data).paragraph_ids.head hne ∧
      (mkChunk sampleDoc 1 3 "제1조".data).end_id =
        (mkChunk sampleDoc 1 3 "제1조".data).paragraph_ids.getLast hne :=
  claim10_span_nonempty sampleDoc _ (by decide)
